import Mathlib

/-!
Shallow embedding of the session-ownership / subscription-routing core of
`rmqtt` (`src/rmqtt/src/broker/mod.rs`): the `SharedSubscription::choice`
selector, the default `Router::is_online`, and the default methods of the
`Shared` facade.  Definitions are translated directly from the Rust source;
theorems settle the specification claims about them.
-/

namespace Rmqtt

/-- Model of `NodeId` (a cluster node ordinal, `u64` in the source). -/
abbrev NodeId := Nat

/-- Model of `ClientId` (an opaque client identifier string). -/
abbrev ClientId := String

/-- Model of `QoS`; its value is opaque to every operation modelled here. -/
abbrev QoS := Nat

/-- Model of `IsOnline = bool`. -/
abbrev IsOnline := Bool

/-- Model of the composite session identifier `Id`, built from a node id and
a client id (`Id::from(node_id, client_id)`). -/
structure Id where
  node_id : NodeId
  client_id : ClientId
deriving DecidableEq

/-- Model of `Id::from(node_id, client_id)` (the constructor used by the
default `Router::is_online`). -/
def Id.ofParts (node_id : NodeId) (client_id : ClientId) : Id :=
  ⟨node_id, client_id⟩

/-- Abstract state of one `Entry` slot, as far as the default
`Router::is_online` observes it: only its `is_connected()` accessor. -/
structure EntryState where
  is_connected : Bool

/-- Abstract state of the `Shared` registry used by the default
`Router::is_online`: the `entry(id)` lookup, which yields an entry slot for
every `Id`. -/
structure SharedState where
  entry : Id → EntryState

/-- Model of the default `Router::is_online(node_id, client_id)`:
`Runtime::instance().extends.shared().await.entry(Id::from(node_id,
ClientId::from(client_id))).is_connected()`.  The ambient `Shared` registry is
passed explicitly. -/
def Router.is_online (shared : SharedState) (node_id : NodeId) (client_id : ClientId) : Bool :=
  (shared.entry (Id.ofParts node_id client_id)).is_connected

/-- Abstract state of a `Shared` implementation as seen by the default
`all_clients` / `all_sessions` methods: the two required local counters
`clients()` and `sessions()`. -/
structure SharedCounts where
  clients : Nat
  sessions : Nat

/-- Model of the default `Shared::all_clients`: `self.clients().await`. -/
def Shared.all_clients (s : SharedCounts) : Nat :=
  s.clients

/-- Model of the default `Shared::all_sessions`: `self.sessions().await`. -/
def Shared.all_sessions (s : SharedCounts) : Nat :=
  s.sessions

/-- Model of `GrpcClients` (a map from `NodeId` to a peer connection handle,
modelled as an association list; the handle itself is opaque). -/
abbrev GrpcClients := List (NodeId × String)

/-- Model of the default `Shared::get_grpc_clients`:
`Arc::new(HashMap::default())`, the empty map. -/
def Shared.get_grpc_clients : GrpcClients :=
  []

/-- Model of the default `Shared::node_name(id)`:
`format!("{}@127.0.0.1", id)` with the `u64` displayed in decimal. -/
def Shared.node_name (id : NodeId) : String :=
  Nat.repr id ++ "@127.0.0.1"

/-- Model of the result type of `Entry::publish`:
`Result<(), (From, Publish, Reason)>` — unit on success, the undelivered
`(from, publish, reason)` triple as the error value. -/
abbrev PublishResult (F P R : Type) : Type :=
  Except (F × P × R) Unit

/-- A shared-subscription candidate `(NodeId, ClientId, QoS, Option<IsOnline>)`
as passed to `SharedSubscription::choice`. -/
abbrev Cand := NodeId × ClientId × QoS × Option IsOnline

/-- A working entry `(idx, node_id, client_id, is_online)` of `tmp_ncs`, as
built by `ncs.iter().enumerate().map(...)` inside `choice`. -/
abbrev TmpCand := Nat × NodeId × ClientId × Option IsOnline

/-- Model of `ncs.iter().enumerate().map(|(idx, (node_id, client_id, _,
is_online))| (idx, node_id, client_id, is_online))`, with `k` the index of the
first element. -/
def initCands : Nat → List Cand → List TmpCand
  | _, [] => []
  | k, (n, c, _, h) :: xs => (k, n, c, h) :: initCands (k + 1) xs

/-- Resolution of one candidate's online status inside the loop of `choice`:
`if let Some(is_online) = is_online { *is_online } else { ...
router().await.is_online(*node_id, client_id).await }`.  The ambient router's
`is_online` is the explicit oracle `onl`. -/
def resolveOnline (onl : NodeId → ClientId → Bool) (n : NodeId) (c : ClientId)
    (h : Option IsOnline) : Bool :=
  match h with
  | some b => b
  | none => onl n c

/-- The random index drawn at one loop iteration of `choice`:
`if tmp_ncs.len() == 1 { 0 } else { rand::random::<usize>() % tmp_ncs.len() }`.
The raw value of `rand::random::<usize>()` at iteration `step` is `rand step`. -/
def pickIdx (rand : Nat → Nat) (step : Nat) (len : Nat) : Nat :=
  if len = 1 then 0 else rand step % len

/-- Model of the `while !tmp_ncs.is_empty()` loop of
`SharedSubscription::choice`: draw a random index, `tmp_ncs.remove(r_idx)` the
candidate there, resolve its online status, return `(idx, true)` if online,
return `(idx, is_online)` if the remaining list just became empty, and
continue otherwise.  The trailing `return None` after the loop is the `[]`
equation. -/
def choiceLoop (onl : NodeId → ClientId → Bool) (rand : Nat → Nat) :
    Nat → List TmpCand → Option (Nat × IsOnline)
  | _, [] => none
  | step, x :: xs =>
    let e := (x :: xs).getD (pickIdx rand step (x :: xs).length) x
    let rest := (x :: xs).eraseIdx (pickIdx rand step (x :: xs).length)
    let is_on := resolveOnline onl e.2.1 e.2.2.1 e.2.2.2
    if is_on then some (e.1, true)
    else if rest.isEmpty then some (e.1, is_on)
    else choiceLoop onl rand (step + 1) rest
termination_by step tmp => tmp.length
decreasing_by
  have hlt : pickIdx rand step (xs.length + 1) < xs.length + 1 := by
    unfold pickIdx
    split
    · omega
    · exact Nat.mod_lt _ (by omega)
  simp only [List.length_eraseIdx, List.length_cons, if_pos hlt]
  omega

/-- Model of `SharedSubscription::choice(ncs)`: `None` on an empty candidate
slice, otherwise the loop on the enumerated working list. -/
def choice (onl : NodeId → ClientId → Bool) (rand : Nat → Nat) (ncs : List Cand) :
    Option (Nat × IsOnline) :=
  if ncs.isEmpty then none
  else choiceLoop onl rand 0 (initCands 0 ncs)

/-- The online status of the candidate at position `i` of `ncs` once resolved
(its hint when present, otherwise the router oracle); `false` out of range. -/
def resolveAt (onl : NodeId → ClientId → Bool) (ncs : List Cand) (i : Nat) : Bool :=
  match ncs[i]? with
  | some (n, c, _, h) => resolveOnline onl n c h
  | none => false

/-- Modelled from the spec: the Selector loop as §4.3 words it — repeatedly
pick a uniformly random remaining candidate, resolve its online status (hint
first, router otherwise), return it immediately when online, discard it and
continue when offline, and when every candidate is exhausted return the last
examined candidate (with its resolved status) as the fallback winner.  The
last examined candidate is carried explicitly in the accumulator. -/
def choiceSpecLoop (onl : NodeId → ClientId → Bool) (rand : Nat → Nat) :
    Nat → Option (Nat × IsOnline) → List TmpCand → Option (Nat × IsOnline)
  | _, lastExamined, [] => lastExamined
  | step, _, x :: xs =>
    let e := (x :: xs).getD (pickIdx rand step (x :: xs).length) x
    let rest := (x :: xs).eraseIdx (pickIdx rand step (x :: xs).length)
    let is_on := resolveOnline onl e.2.1 e.2.2.1 e.2.2.2
    if is_on then some (e.1, true)
    else choiceSpecLoop onl rand (step + 1) (some (e.1, is_on)) rest
termination_by step acc tmp => tmp.length
decreasing_by
  have hlt : pickIdx rand step (xs.length + 1) < xs.length + 1 := by
    unfold pickIdx
    split
    · omega
    · exact Nat.mod_lt _ (by omega)
  simp only [List.length_eraseIdx, List.length_cons, if_pos hlt]
  omega

/-- Modelled from the spec: `choice` as §4.3 words it — none for an empty
candidate set, otherwise the spec loop started with no candidate examined
yet. -/
def choiceSpec (onl : NodeId → ClientId → Bool) (rand : Nat → Nat) (ncs : List Cand) :
    Option (Nat × IsOnline) :=
  if ncs.isEmpty then none
  else choiceSpecLoop onl rand 0 none (initCands 0 ncs)

/-- Fuel-instrumented variant of `choiceLoop`: each loop iteration consumes
one unit of fuel; the outer `none` means the fuel ran out before the loop
returned.  Used to bound the number of iterations of `choice`. -/
def choiceLoopFuel (onl : NodeId → ClientId → Bool) (rand : Nat → Nat) :
    Nat → Nat → List TmpCand → Option (Option (Nat × IsOnline))
  | _, _, [] => some none
  | 0, _, _ :: _ => none
  | fuel + 1, step, x :: xs =>
    let e := (x :: xs).getD (pickIdx rand step (x :: xs).length) x
    let rest := (x :: xs).eraseIdx (pickIdx rand step (x :: xs).length)
    let is_on := resolveOnline onl e.2.1 e.2.2.1 e.2.2.2
    if is_on then some (some (e.1, true))
    else if rest.isEmpty then some (some (e.1, is_on))
    else choiceLoopFuel onl rand fuel (step + 1) rest

/-- Fuel-instrumented variant of `choice`. -/
def choiceFuel (onl : NodeId → ClientId → Bool) (rand : Nat → Nat) (fuel : Nat)
    (ncs : List Cand) : Option (Option (Nat × IsOnline)) :=
  if ncs.isEmpty then some none
  else choiceLoopFuel onl rand fuel 0 (initCands 0 ncs)

/-- Trace-instrumented variant of `choiceLoop`: additionally returns the list
of original indices examined by the loop, in order. -/
def choiceLoopTrace (onl : NodeId → ClientId → Bool) (rand : Nat → Nat) :
    Nat → List TmpCand → List Nat × Option (Nat × IsOnline)
  | _, [] => ([], none)
  | step, x :: xs =>
    let e := (x :: xs).getD (pickIdx rand step (x :: xs).length) x
    let rest := (x :: xs).eraseIdx (pickIdx rand step (x :: xs).length)
    let is_on := resolveOnline onl e.2.1 e.2.2.1 e.2.2.2
    if is_on then ([e.1], some (e.1, true))
    else if rest.isEmpty then ([e.1], some (e.1, is_on))
    else
      let r := choiceLoopTrace onl rand (step + 1) rest
      (e.1 :: r.1, r.2)
termination_by step tmp => tmp.length
decreasing_by
  have hlt : pickIdx rand step (xs.length + 1) < xs.length + 1 := by
    unfold pickIdx
    split
    · omega
    · exact Nat.mod_lt _ (by omega)
  simp only [List.length_eraseIdx, List.length_cons, if_pos hlt]
  omega

/-- Trace-instrumented variant of `choice`. -/
def choiceTrace (onl : NodeId → ClientId → Bool) (rand : Nat → Nat) (ncs : List Cand) :
    List Nat × Option (Nat × IsOnline) :=
  if ncs.isEmpty then ([], none)
  else choiceLoopTrace onl rand 0 (initCands 0 ncs)


/-- The random index drawn at each iteration is in range whenever the working
list is non-empty. -/
theorem pickIdx_lt (rand : Nat → Nat) (step : Nat) {len : Nat} (hlen : 0 < len) :
    pickIdx rand step len < len := by
  unfold pickIdx
  split
  · omega
  · exact Nat.mod_lt _ hlen

/-- Unfolding of `choiceLoop` on the empty working list. -/
theorem choiceLoop_nil (onl : NodeId → ClientId → Bool) (rand : Nat → Nat) (step : Nat) :
    choiceLoop onl rand step [] = none := by
  rw [choiceLoop]

/-- Unfolding of `choiceLoop` on a non-empty working list. -/
theorem choiceLoop_cons (onl : NodeId → ClientId → Bool) (rand : Nat → Nat) (step : Nat)
    (x : TmpCand) (xs : List TmpCand) {e : TmpCand} {rest : List TmpCand}
    (he : e = (x :: xs).getD (pickIdx rand step (x :: xs).length) x)
    (hrest : rest = (x :: xs).eraseIdx (pickIdx rand step (x :: xs).length)) :
    choiceLoop onl rand step (x :: xs) =
      if resolveOnline onl e.2.1 e.2.2.1 e.2.2.2 then some (e.1, true)
      else if rest.isEmpty then some (e.1, resolveOnline onl e.2.1 e.2.2.1 e.2.2.2)
      else choiceLoop onl rand (step + 1) rest := by
  subst he hrest
  rw [choiceLoop]

/-- Unfolding of `choiceSpecLoop` on the empty working list. -/
theorem choiceSpecLoop_nil (onl : NodeId → ClientId → Bool) (rand : Nat → Nat) (step : Nat)
    (acc : Option (Nat × IsOnline)) :
    choiceSpecLoop onl rand step acc [] = acc := by
  rw [choiceSpecLoop]

/-- Unfolding of `choiceSpecLoop` on a non-empty working list. -/
theorem choiceSpecLoop_cons (onl : NodeId → ClientId → Bool) (rand : Nat → Nat) (step : Nat)
    (acc : Option (Nat × IsOnline)) (x : TmpCand) (xs : List TmpCand)
    {e : TmpCand} {rest : List TmpCand}
    (he : e = (x :: xs).getD (pickIdx rand step (x :: xs).length) x)
    (hrest : rest = (x :: xs).eraseIdx (pickIdx rand step (x :: xs).length)) :
    choiceSpecLoop onl rand step acc (x :: xs) =
      if resolveOnline onl e.2.1 e.2.2.1 e.2.2.2 then some (e.1, true)
      else choiceSpecLoop onl rand (step + 1)
        (some (e.1, resolveOnline onl e.2.1 e.2.2.1 e.2.2.2)) rest := by
  subst he hrest
  rw [choiceSpecLoop]

/-- Unfolding of `choiceLoopTrace` on the empty working list. -/
theorem choiceLoopTrace_nil (onl : NodeId → ClientId → Bool) (rand : Nat → Nat) (step : Nat) :
    choiceLoopTrace onl rand step [] = ([], none) := by
  rw [choiceLoopTrace]

/-- Unfolding of `choiceLoopTrace` on a non-empty working list. -/
theorem choiceLoopTrace_cons (onl : NodeId → ClientId → Bool) (rand : Nat → Nat) (step : Nat)
    (x : TmpCand) (xs : List TmpCand) {e : TmpCand} {rest : List TmpCand}
    (he : e = (x :: xs).getD (pickIdx rand step (x :: xs).length) x)
    (hrest : rest = (x :: xs).eraseIdx (pickIdx rand step (x :: xs).length)) :
    choiceLoopTrace onl rand step (x :: xs) =
      if resolveOnline onl e.2.1 e.2.2.1 e.2.2.2 then ([e.1], some (e.1, true))
      else if rest.isEmpty then
        ([e.1], some (e.1, resolveOnline onl e.2.1 e.2.2.1 e.2.2.2))
      else
        (e.1 :: (choiceLoopTrace onl rand (step + 1) rest).1,
         (choiceLoopTrace onl rand (step + 1) rest).2) := by
  subst he hrest
  rw [choiceLoopTrace]

/-- The enumerated working list has the same length as the candidate list. -/
theorem initCands_length (k : Nat) (l : List Cand) :
    (initCands k l).length = l.length := by
  induction l generalizing k with
  | nil => rfl
  | cons x xs ih =>
    obtain ⟨n, c, q, h⟩ := x
    simp [initCands, ih]

/-- Every member of the enumerated working list records the position (offset
by the starting index) and the data of a candidate of the input list. -/
theorem mem_initCands {i : Nat} {n : NodeId} {c : ClientId} {h : Option IsOnline}
    {k : Nat} {l : List Cand} (hm : (i, n, c, h) ∈ initCands k l) :
    k ≤ i ∧ ∃ q, l[i - k]? = some (n, c, q, h) := by
  induction l generalizing k with
  | nil => simp [initCands] at hm
  | cons x xs ih =>
    obtain ⟨n0, c0, q0, h0⟩ := x
    simp only [initCands, List.mem_cons] at hm
    rcases hm with heq | htail
    · simp only [Prod.mk.injEq] at heq
      obtain ⟨rfl, rfl, rfl, rfl⟩ := heq
      exact ⟨le_rfl, q0, by simp⟩
    · obtain ⟨hk, q, hq⟩ := ih htail
      refine ⟨by omega, q, ?_⟩
      have hik : i - k = (i - (k + 1)) + 1 := by omega
      rw [hik, List.getElem?_cons_succ]
      exact hq

/-- Conversely, every candidate of the input list appears in the enumerated
working list at its position (offset by the starting index). -/
theorem initCands_mem {j : Nat} {n : NodeId} {c : ClientId} {q : QoS}
    {h : Option IsOnline} {l : List Cand} (k : Nat)
    (hj : l[j]? = some (n, c, q, h)) :
    (k + j, n, c, h) ∈ initCands k l := by
  induction l generalizing k j with
  | nil => simp at hj
  | cons x xs ih =>
    obtain ⟨n0, c0, q0, h0⟩ := x
    cases j with
    | zero =>
      rw [List.getElem?_cons_zero] at hj
      simp only [Option.some.injEq, Prod.mk.injEq] at hj
      obtain ⟨rfl, rfl, rfl, rfl⟩ := hj
      simp [initCands]
    | succ j =>
      rw [List.getElem?_cons_succ] at hj
      have hmem := ih (k + 1) hj
      have harith : k + 1 + j = k + (j + 1) := by omega
      rw [harith] at hmem
      exact List.mem_cons_of_mem _ hmem

/-- An in-range `getD` access is a member of the list. -/
theorem getD_mem {α : Type} {l : List α} {i : Nat} (d : α) (hi : i < l.length) :
    l.getD i d ∈ l := by
  rw [List.getD_eq_getElem?_getD, List.getElem?_eq_getElem hi]
  simpa using List.getElem_mem hi

/-- An in-range `getD` access equals the corresponding `getElem` access. -/
theorem getD_eq_getElem {α : Type} {l : List α} {i : Nat} (d : α) (hi : i < l.length) :
    l.getD i d = l[i] := by
  rw [List.getD_eq_getElem?_getD, List.getElem?_eq_getElem hi]
  rfl

/-- A member distinct from the element at the removed position survives
`eraseIdx`. -/
theorem mem_eraseIdx_of_ne {α : Type} {l : List α} {i : Nat} {a : α}
    (ha : a ∈ l) (hi : i < l.length) (hne : a ≠ l[i]) : a ∈ l.eraseIdx i := by
  induction l generalizing i with
  | nil => simp at ha
  | cons b t ih =>
    cases i with
    | zero =>
      rw [List.eraseIdx_cons_zero]
      have hne0 : a ≠ b := by simpa using hne
      rcases List.mem_cons.mp ha with rfl | hmem
      · exact absurd rfl hne0
      · exact hmem
    | succ i =>
      rw [List.eraseIdx_cons_succ]
      rcases List.mem_cons.mp ha with rfl | hmem
      · exact List.mem_cons_self _ _
      · have hi2 : i < t.length := by simpa using hi
        have hne2 : a ≠ t[i] := by simpa using hne
        exact List.mem_cons_of_mem _ (ih hmem hi2 hne2)

/-- `map` commutes with `eraseIdx`. -/
theorem map_eraseIdx {α β : Type} (f : α → β) (l : List α) (i : Nat) :
    (l.eraseIdx i).map f = (l.map f).eraseIdx i := by
  induction l generalizing i with
  | nil => simp
  | cons b t ih =>
    cases i with
    | zero => simp
    | succ i => simp [List.eraseIdx_cons_succ, ih]

/-- In a duplicate-free list, the element at the removed position does not
survive `eraseIdx`. -/
theorem getElem_not_mem_eraseIdx {α : Type} {l : List α} (hnd : l.Nodup) {i : Nat}
    (hi : i < l.length) : l[i] ∉ l.eraseIdx i := by
  induction l generalizing i with
  | nil => simp at hi
  | cons b t ih =>
    rcases List.nodup_cons.mp hnd with ⟨hb, ht⟩
    cases i with
    | zero => simpa using hb
    | succ i =>
      have hi2 : i < t.length := by simpa using hi
      rw [List.eraseIdx_cons_succ]
      simp only [List.getElem_cons_succ, List.mem_cons]
      rintro (heq | hmem)
      · exact hb (heq ▸ List.getElem_mem hi2)
      · exact ih ht hi2 hmem

/-- The original indices stored in the enumerated working list are the
consecutive range starting at the starting index. -/
theorem initCands_map_fst (k : Nat) (l : List Cand) :
    (initCands k l).map Prod.fst = List.range' k l.length := by
  induction l generalizing k with
  | nil => simp [initCands]
  | cons x xs ih =>
    obtain ⟨n, c, q, h⟩ := x
    simp [initCands, List.range'_succ, ih]

/-- The original indices stored in the enumerated working list are pairwise
distinct. -/
theorem initCands_fst_nodup (k : Nat) (l : List Cand) :
    ((initCands k l).map Prod.fst).Nodup := by
  rw [initCands_map_fst]
  exact List.nodup_range' _ _

/-- The loop of `choice` returns a winner on every non-empty working list. -/
theorem choiceLoop_isSome (onl : NodeId → ClientId → Bool) (rand : Nat → Nat) :
    ∀ (bnd step : Nat) (tmp : List TmpCand), tmp.length ≤ bnd → tmp ≠ [] →
      (choiceLoop onl rand step tmp).isSome := by
  intro bnd
  induction bnd with
  | zero =>
    intro step tmp hb hne
    cases tmp with
    | nil => exact absurd rfl hne
    | cons x xs => simp at hb
  | succ bb ih =>
    intro step tmp hb hne
    cases tmp with
    | nil => exact absurd rfl hne
    | cons x xs =>
      have hlen : 0 < (x :: xs).length := by simp
      have hridx := pickIdx_lt rand step hlen
      set e := (x :: xs).getD (pickIdx rand step (x :: xs).length) x with he
      set rest := (x :: xs).eraseIdx (pickIdx rand step (x :: xs).length) with hrest
      rw [choiceLoop_cons onl rand step x xs he hrest]
      by_cases hon : resolveOnline onl e.2.1 e.2.2.1 e.2.2.2
      · rw [if_pos hon]
        rfl
      · rw [if_neg hon]
        cases hE : rest.isEmpty
        · rw [if_neg (by simp [hE])]
          have hrl : rest.length ≤ bb := by
            rw [hrest, List.length_eraseIdx, if_pos hridx]
            omega
          exact ih (step + 1) rest hrl (by simpa [List.isEmpty_iff] using hE)
        · rw [if_pos (by simp [hE])]
          rfl

/-- Every winner returned by the loop of `choice` is a member of the working
list, and the returned online flag is that member's resolved online status. -/
theorem choiceLoop_winner (onl : NodeId → ClientId → Bool) (rand : Nat → Nat) :
    ∀ (bnd step : Nat) (tmp : List TmpCand) (i : Nat) (b : Bool),
      tmp.length ≤ bnd → choiceLoop onl rand step tmp = some (i, b) →
      ∃ n c h, (i, n, c, h) ∈ tmp ∧ resolveOnline onl n c h = b := by
  intro bnd
  induction bnd with
  | zero =>
    intro step tmp i b hb heq
    cases tmp with
    | nil => rw [choiceLoop_nil] at heq; exact absurd heq (by simp)
    | cons x xs => simp at hb
  | succ bb ih =>
    intro step tmp i b hb heq
    cases tmp with
    | nil => rw [choiceLoop_nil] at heq; exact absurd heq (by simp)
    | cons x xs =>
      have hlen : 0 < (x :: xs).length := by simp
      have hridx := pickIdx_lt rand step hlen
      set e := (x :: xs).getD (pickIdx rand step (x :: xs).length) x with he
      set rest := (x :: xs).eraseIdx (pickIdx rand step (x :: xs).length) with hrest
      have hmem : e ∈ x :: xs := he ▸ getD_mem x hridx
      rw [choiceLoop_cons onl rand step x xs he hrest] at heq
      by_cases hon : resolveOnline onl e.2.1 e.2.2.1 e.2.2.2
      · rw [if_pos hon] at heq
        simp only [Option.some.injEq, Prod.mk.injEq] at heq
        obtain ⟨rfl, rfl⟩ := heq
        exact ⟨e.2.1, e.2.2.1, e.2.2.2, hmem, hon⟩
      · rw [if_neg hon] at heq
        cases hE : rest.isEmpty
        · rw [if_neg (by simp [hE])] at heq
          have hrl : rest.length ≤ bb := by
            rw [hrest, List.length_eraseIdx, if_pos hridx]
            omega
          obtain ⟨n, c, h, hm, hr⟩ := ih (step + 1) rest i b hrl heq
          exact ⟨n, c, h, List.mem_of_mem_eraseIdx (hrest ▸ hm), hr⟩
        · rw [if_pos (by simp [hE])] at heq
          simp only [Option.some.injEq, Prod.mk.injEq] at heq
          obtain ⟨rfl, rfl⟩ := heq
          exact ⟨e.2.1, e.2.2.1, e.2.2.2, hmem, rfl⟩

/-- If some member of the working list resolves as online, the loop of
`choice` returns a winner whose online flag is `true`. -/
theorem choiceLoop_online (onl : NodeId → ClientId → Bool) (rand : Nat → Nat) :
    ∀ (bnd step : Nat) (tmp : List TmpCand),
      tmp.length ≤ bnd →
      (∃ en ∈ tmp, resolveOnline onl en.2.1 en.2.2.1 en.2.2.2 = true) →
      ∃ i, choiceLoop onl rand step tmp = some (i, true) := by
  intro bnd
  induction bnd with
  | zero =>
    intro step tmp hb hex
    cases tmp with
    | nil => obtain ⟨en, hm, _⟩ := hex; simp at hm
    | cons x xs => simp at hb
  | succ bb ih =>
    intro step tmp hb hex
    cases tmp with
    | nil => obtain ⟨en, hm, _⟩ := hex; simp at hm
    | cons x xs =>
      have hlen : 0 < (x :: xs).length := by simp
      have hridx := pickIdx_lt rand step hlen
      set e := (x :: xs).getD (pickIdx rand step (x :: xs).length) x with he
      set rest := (x :: xs).eraseIdx (pickIdx rand step (x :: xs).length) with hrest
      rw [choiceLoop_cons onl rand step x xs he hrest]
      by_cases hon : resolveOnline onl e.2.1 e.2.2.1 e.2.2.2
      · exact ⟨e.1, by rw [if_pos hon]⟩
      · obtain ⟨en, hm, hr⟩ := hex
        have hne : en ≠ e := fun hcontra => hon (hcontra ▸ hr)
        have hee : e = (x :: xs)[pickIdx rand step (x :: xs).length] :=
          he ▸ getD_eq_getElem x hridx
        have hmr : en ∈ rest := by
          rw [hrest]
          exact mem_eraseIdx_of_ne hm hridx (by rw [← hee]; exact hne)
        have hrne : rest ≠ [] := fun h0 => by rw [h0] at hmr; simp at hmr
        rw [if_neg hon, if_neg (by simp [List.isEmpty_iff, hrne])]
        have hrl : rest.length ≤ bb := by
          rw [hrest, List.length_eraseIdx, if_pos hridx]
          omega
        exact ih (step + 1) rest hrl ⟨en, hmr, hr⟩

/-- If the working list holds exactly one member that resolves as online, the
loop of `choice` returns precisely that member's original index, online. -/
theorem choiceLoop_unique (onl : NodeId → ClientId → Bool) (rand : Nat → Nat) :
    ∀ (bnd step : Nat) (tmp : List TmpCand) (j : Nat) (nj : NodeId) (cj : ClientId)
      (hj : Option IsOnline),
      tmp.length ≤ bnd →
      (j, nj, cj, hj) ∈ tmp →
      resolveOnline onl nj cj hj = true →
      (∀ en ∈ tmp, resolveOnline onl en.2.1 en.2.2.1 en.2.2.2 = true → en = (j, nj, cj, hj)) →
      choiceLoop onl rand step tmp = some (j, true) := by
  intro bnd
  induction bnd with
  | zero =>
    intro step tmp j nj cj hj hb hm hres huniq
    cases tmp with
    | nil => simp at hm
    | cons x xs => simp at hb
  | succ bb ih =>
    intro step tmp j nj cj hj hb hm hres huniq
    cases tmp with
    | nil => simp at hm
    | cons x xs =>
      have hlen : 0 < (x :: xs).length := by simp
      have hridx := pickIdx_lt rand step hlen
      set e := (x :: xs).getD (pickIdx rand step (x :: xs).length) x with he
      set rest := (x :: xs).eraseIdx (pickIdx rand step (x :: xs).length) with hrest
      have hmem : e ∈ x :: xs := he ▸ getD_mem x hridx
      rw [choiceLoop_cons onl rand step x xs he hrest]
      by_cases hon : resolveOnline onl e.2.1 e.2.2.1 e.2.2.2
      · rw [if_pos hon]
        have heqj : e = (j, nj, cj, hj) := huniq e hmem hon
        rw [heqj]
      · have hne : (j, nj, cj, hj) ≠ e := by
          intro hcontra
          apply hon
          rw [← hcontra]
          exact hres
        have hee : e = (x :: xs)[pickIdx rand step (x :: xs).length] :=
          he ▸ getD_eq_getElem x hridx
        have hmr : (j, nj, cj, hj) ∈ rest := by
          rw [hrest]
          exact mem_eraseIdx_of_ne hm hridx (by rw [← hee]; exact hne)
        have hrne : rest ≠ [] := fun h0 => by rw [h0] at hmr; simp at hmr
        rw [if_neg hon, if_neg (by simp [List.isEmpty_iff, hrne])]
        have hrl : rest.length ≤ bb := by
          rw [hrest, List.length_eraseIdx, if_pos hridx]
          omega
        exact ih (step + 1) rest j nj cj hj hrl hmr hres
          (fun en hmen hren => huniq en (List.mem_of_mem_eraseIdx (hrest ▸ hmen)) hren)

/-- On a non-empty working list, the spec-worded loop agrees with the source
loop whatever candidate was last examined so far. -/
theorem choiceSpecLoop_eq (onl : NodeId → ClientId → Bool) (rand : Nat → Nat) :
    ∀ (bnd step : Nat) (acc : Option (Nat × IsOnline)) (tmp : List TmpCand),
      tmp.length ≤ bnd → tmp ≠ [] →
      choiceSpecLoop onl rand step acc tmp = choiceLoop onl rand step tmp := by
  intro bnd
  induction bnd with
  | zero =>
    intro step acc tmp hb hne
    cases tmp with
    | nil => exact absurd rfl hne
    | cons x xs => simp at hb
  | succ bb ih =>
    intro step acc tmp hb hne
    cases tmp with
    | nil => exact absurd rfl hne
    | cons x xs =>
      have hlen : 0 < (x :: xs).length := by simp
      have hridx := pickIdx_lt rand step hlen
      set e := (x :: xs).getD (pickIdx rand step (x :: xs).length) x with he
      set rest := (x :: xs).eraseIdx (pickIdx rand step (x :: xs).length) with hrest
      rw [choiceSpecLoop_cons onl rand step acc x xs he hrest,
        choiceLoop_cons onl rand step x xs he hrest]
      by_cases hon : resolveOnline onl e.2.1 e.2.2.1 e.2.2.2
      · rw [if_pos hon, if_pos hon]
      · rw [if_neg hon, if_neg hon]
        cases hE : rest.isEmpty
        · rw [if_neg (by simp [hE])]
          have hrl : rest.length ≤ bb := by
            rw [hrest, List.length_eraseIdx, if_pos hridx]
            omega
          exact ih (step + 1) _ rest hrl (by simpa [List.isEmpty_iff] using hE)
        · rw [if_pos (by simp [hE])]
          have hrnil : rest = [] := List.isEmpty_iff.mp hE
          rw [hrnil, choiceSpecLoop_nil]

/-- Unfolding of `choiceLoopFuel` on the empty working list. -/
theorem choiceLoopFuel_nil (onl : NodeId → ClientId → Bool) (rand : Nat → Nat)
    (fuel step : Nat) : choiceLoopFuel onl rand fuel step [] = some none := by
  cases fuel <;> rfl

/-- Unfolding of `choiceLoopFuel` on a non-empty working list with fuel left. -/
theorem choiceLoopFuel_cons (onl : NodeId → ClientId → Bool) (rand : Nat → Nat)
    (f step : Nat) (x : TmpCand) (xs : List TmpCand) {e : TmpCand} {rest : List TmpCand}
    (he : e = (x :: xs).getD (pickIdx rand step (x :: xs).length) x)
    (hrest : rest = (x :: xs).eraseIdx (pickIdx rand step (x :: xs).length)) :
    choiceLoopFuel onl rand (f + 1) step (x :: xs) =
      if resolveOnline onl e.2.1 e.2.2.1 e.2.2.2 then some (some (e.1, true))
      else if rest.isEmpty then some (some (e.1, resolveOnline onl e.2.1 e.2.2.1 e.2.2.2))
      else choiceLoopFuel onl rand f (step + 1) rest := by
  subst he hrest
  rfl

/-- A fuel budget of one unit per remaining candidate lets the instrumented
loop finish with exactly the result of the source loop: the loop performs at most
as many iterations as there are candidates. -/
theorem choiceLoopFuel_eq (onl : NodeId → ClientId → Bool) (rand : Nat → Nat) :
    ∀ (bnd fuel step : Nat) (tmp : List TmpCand),
      tmp.length ≤ bnd → tmp.length ≤ fuel →
      choiceLoopFuel onl rand fuel step tmp = some (choiceLoop onl rand step tmp) := by
  intro bnd
  induction bnd with
  | zero =>
    intro fuel step tmp hb hf
    cases tmp with
    | nil => rw [choiceLoop_nil, choiceLoopFuel_nil]
    | cons x xs => simp at hb
  | succ bb ih =>
    intro fuel step tmp hb hf
    cases tmp with
    | nil => rw [choiceLoop_nil, choiceLoopFuel_nil]
    | cons x xs =>
      cases fuel with
      | zero => simp at hf
      | succ f =>
        have hlen : 0 < (x :: xs).length := by simp
        have hridx := pickIdx_lt rand step hlen
        set e := (x :: xs).getD (pickIdx rand step (x :: xs).length) x with he
        set rest := (x :: xs).eraseIdx (pickIdx rand step (x :: xs).length) with hrest
        rw [choiceLoopFuel_cons onl rand f step x xs he hrest,
          choiceLoop_cons onl rand step x xs he hrest]
        by_cases hon : resolveOnline onl e.2.1 e.2.2.1 e.2.2.2
        · rw [if_pos hon, if_pos hon]
        · rw [if_neg hon, if_neg hon]
          cases hE : rest.isEmpty
          · rw [if_neg (by simp [hE]), if_neg (by simp [hE])]
            have hrl : rest.length ≤ bb := by
              rw [hrest, List.length_eraseIdx, if_pos hridx]
              omega
            have hrf : rest.length ≤ f := by
              rw [hrest, List.length_eraseIdx, if_pos hridx]
              simp only [List.length_cons] at hf ⊢
              omega
            exact ih f (step + 1) rest hrl hrf
          · rw [if_pos (by simp [hE]), if_pos (by simp [hE])]

/-- The instrumented loop returns the same winner as the source loop. -/
theorem choiceLoopTrace_snd (onl : NodeId → ClientId → Bool) (rand : Nat → Nat) :
    ∀ (bnd step : Nat) (tmp : List TmpCand), tmp.length ≤ bnd →
      (choiceLoopTrace onl rand step tmp).2 = choiceLoop onl rand step tmp := by
  intro bnd
  induction bnd with
  | zero =>
    intro step tmp hb
    cases tmp with
    | nil => rw [choiceLoopTrace_nil, choiceLoop_nil]
    | cons x xs => simp at hb
  | succ bb ih =>
    intro step tmp hb
    cases tmp with
    | nil => rw [choiceLoopTrace_nil, choiceLoop_nil]
    | cons x xs =>
      have hlen : 0 < (x :: xs).length := by simp
      have hridx := pickIdx_lt rand step hlen
      set e := (x :: xs).getD (pickIdx rand step (x :: xs).length) x with he
      set rest := (x :: xs).eraseIdx (pickIdx rand step (x :: xs).length) with hrest
      rw [choiceLoopTrace_cons onl rand step x xs he hrest,
        choiceLoop_cons onl rand step x xs he hrest]
      by_cases hon : resolveOnline onl e.2.1 e.2.2.1 e.2.2.2
      · rw [if_pos hon, if_pos hon]
      · rw [if_neg hon, if_neg hon]
        cases hE : rest.isEmpty
        · rw [if_neg (by simp [hE]), if_neg (by simp [hE])]
          have hrl : rest.length ≤ bb := by
            rw [hrest, List.length_eraseIdx, if_pos hridx]
            omega
          exact ih (step + 1) rest hrl
        · rw [if_pos (by simp [hE]), if_pos (by simp [hE])]

/-- Every index the instrumented loop records was an original index of some
member of the working list. -/
theorem choiceLoopTrace_fst_mem (onl : NodeId → ClientId → Bool) (rand : Nat → Nat) :
    ∀ (bnd step : Nat) (tmp : List TmpCand), tmp.length ≤ bnd →
      ∀ i ∈ (choiceLoopTrace onl rand step tmp).1, i ∈ tmp.map Prod.fst := by
  intro bnd
  induction bnd with
  | zero =>
    intro step tmp hb i hi
    cases tmp with
    | nil => rw [choiceLoopTrace_nil] at hi; simp at hi
    | cons x xs => simp at hb
  | succ bb ih =>
    intro step tmp hb i hi
    cases tmp with
    | nil => rw [choiceLoopTrace_nil] at hi; simp at hi
    | cons x xs =>
      have hlen : 0 < (x :: xs).length := by simp
      have hridx := pickIdx_lt rand step hlen
      set e := (x :: xs).getD (pickIdx rand step (x :: xs).length) x with he
      set rest := (x :: xs).eraseIdx (pickIdx rand step (x :: xs).length) with hrest
      have hmem : e ∈ x :: xs := he ▸ getD_mem x hridx
      rw [choiceLoopTrace_cons onl rand step x xs he hrest] at hi
      by_cases hon : resolveOnline onl e.2.1 e.2.2.1 e.2.2.2
      · rw [if_pos hon] at hi
        have hie : i = e.1 := by simpa using hi
        exact hie ▸ List.mem_map.mpr ⟨e, hmem, rfl⟩
      · rw [if_neg hon] at hi
        cases hE : rest.isEmpty
        · rw [if_neg (by simp [hE])] at hi
          rcases List.mem_cons.mp hi with rfl | htail
          · exact List.mem_map.mpr ⟨e, hmem, rfl⟩
          · have hrl : rest.length ≤ bb := by
              rw [hrest, List.length_eraseIdx, if_pos hridx]
              omega
            have hmr := ih (step + 1) rest hrl i htail
            rw [hrest, map_eraseIdx] at hmr
            exact List.mem_of_mem_eraseIdx hmr
        · rw [if_pos (by simp [hE])] at hi
          have hie : i = e.1 := by simpa using hi
          exact hie ▸ List.mem_map.mpr ⟨e, hmem, rfl⟩

/-- If the working list carries pairwise-distinct original indices, the
sequence of indices the loop examines has no repetition: each candidate is
examined at most once. -/
theorem choiceLoopTrace_fst_nodup (onl : NodeId → ClientId → Bool) (rand : Nat → Nat) :
    ∀ (bnd step : Nat) (tmp : List TmpCand), tmp.length ≤ bnd →
      (tmp.map Prod.fst).Nodup → (choiceLoopTrace onl rand step tmp).1.Nodup := by
  intro bnd
  induction bnd with
  | zero =>
    intro step tmp hb hnd
    cases tmp with
    | nil => rw [choiceLoopTrace_nil]; exact List.nodup_nil
    | cons x xs => simp at hb
  | succ bb ih =>
    intro step tmp hb hnd
    cases tmp with
    | nil => rw [choiceLoopTrace_nil]; exact List.nodup_nil
    | cons x xs =>
      have hlen : 0 < (x :: xs).length := by simp
      have hridx := pickIdx_lt rand step hlen
      set e := (x :: xs).getD (pickIdx rand step (x :: xs).length) x with he
      set rest := (x :: xs).eraseIdx (pickIdx rand step (x :: xs).length) with hrest
      have hmem : e ∈ x :: xs := he ▸ getD_mem x hridx
      have hee : e = (x :: xs)[pickIdx rand step (x :: xs).length] :=
        he ▸ getD_eq_getElem x hridx
      have htmpnd : (x :: xs).Nodup := List.Nodup.of_map Prod.fst hnd
      have hrestnd : (rest.map Prod.fst).Nodup := by
        rw [hrest, map_eraseIdx]
        exact List.Nodup.sublist (List.eraseIdx_sublist _ _) hnd
      have henotin : e ∉ rest := by
        rw [hrest, hee]
        exact getElem_not_mem_eraseIdx htmpnd hridx
      rw [choiceLoopTrace_cons onl rand step x xs he hrest]
      by_cases hon : resolveOnline onl e.2.1 e.2.2.1 e.2.2.2
      · rw [if_pos hon]
        exact List.nodup_cons.mpr ⟨by simp, List.nodup_nil⟩
      · rw [if_neg hon]
        cases hE : rest.isEmpty
        · rw [if_neg (by simp [hE])]
          have hrl : rest.length ≤ bb := by
            rw [hrest, List.length_eraseIdx, if_pos hridx]
            omega
          refine List.nodup_cons.mpr ⟨?_, ih (step + 1) rest hrl hrestnd⟩
          intro hin
          have hmr := choiceLoopTrace_fst_mem onl rand bb (step + 1) rest hrl e.1 hin
          obtain ⟨en, hen, hfst⟩ := List.mem_map.mp hmr
          have henT : en ∈ x :: xs := List.mem_of_mem_eraseIdx (hrest ▸ hen)
          have heq : en = e := List.inj_on_of_nodup_map hnd henT hmem hfst
          exact henotin (heq ▸ hen)
        · rw [if_pos (by simp [hE])]
          exact List.nodup_cons.mpr ⟨by simp, List.nodup_nil⟩

/-- A non-empty list has `isEmpty = false`. -/
theorem isEmpty_false_of_ne_nil {α : Type} {l : List α} (h : l ≠ []) :
    l.isEmpty = false := by
  cases hI : l.isEmpty
  · rfl
  · exact absurd (List.isEmpty_iff.mp hI) h

/-- The enumerated working list of a non-empty candidate list is non-empty. -/
theorem initCands_ne_nil {ncs : List Cand} (hne : ncs ≠ []) :
    initCands 0 ncs ≠ [] := by
  intro h0
  have hlen := initCands_length 0 ncs
  rw [h0] at hlen
  have hpos : 0 < ncs.length := List.length_pos.mpr hne
  simp at hlen
  omega

/-- Claim C1: `choice` returns `none` iff the initial candidate list is
empty; on every non-empty candidate list — even one whose candidates all
resolve as offline — it returns exactly one winner. -/
theorem choice_none_iff_empty (onl : NodeId → ClientId → Bool) (rand : Nat → Nat)
    (ncs : List Cand) : choice onl rand ncs = none ↔ ncs = [] := by
  constructor
  · intro h
    by_contra hne
    unfold choice at h
    rw [if_neg (by simp [isEmpty_false_of_ne_nil hne])] at h
    have hs := choiceLoop_isSome onl rand (initCands 0 ncs).length 0 (initCands 0 ncs)
      le_rfl (initCands_ne_nil hne)
    rw [h] at hs
    simp at hs
  · intro h
    subst h
    rfl

/-- Claim C2: `choice` implements the spec-worded algorithm — repeatedly pick
a random remaining candidate, use its online hint or resolve it through the
router, return it immediately when online, discard it and continue when
offline, and return the last examined candidate as the fallback winner when
every candidate is exhausted. -/
theorem choice_matches_spec (onl : NodeId → ClientId → Bool) (rand : Nat → Nat)
    (ncs : List Cand) : choice onl rand ncs = choiceSpec onl rand ncs := by
  unfold choice choiceSpec
  cases hI : ncs.isEmpty
  · rw [if_neg (by simp [hI]), if_neg (by simp [hI])]
    have hne : ncs ≠ [] := by
      intro h0
      rw [h0] at hI
      simp at hI
    exact (choiceSpecLoop_eq onl rand (initCands 0 ncs).length 0 none (initCands 0 ncs)
      le_rfl (initCands_ne_nil hne)).symm
  · rw [if_pos (by simp [hI]), if_pos (by simp [hI])]

/-- Claim C3: when exactly one candidate of a non-empty list resolves as
online (per its hint or per the router), every invocation of `choice`, under
every sequence of random picks, returns that candidate with online status
`true`. -/
theorem choice_unique_online (onl : NodeId → ClientId → Bool) (rand : Nat → Nat)
    (ncs : List Cand) (j : Nat) (hjlen : j < ncs.length)
    (hon : resolveAt onl ncs j = true)
    (hoff : ∀ i, i < ncs.length → i ≠ j → resolveAt onl ncs i = false) :
    choice onl rand ncs = some (j, true) := by
  obtain ⟨nj, cj, qj, hj, hget⟩ : ∃ n c q h, ncs[j]? = some (n, c, q, h) := by
    refine ⟨ncs[j].1, ncs[j].2.1, ncs[j].2.2.1, ncs[j].2.2.2, ?_⟩
    rw [List.getElem?_eq_getElem hjlen]
  have hres : resolveOnline onl nj cj hj = true := by
    unfold resolveAt at hon
    rw [hget] at hon
    exact hon
  have hmemj : (j, nj, cj, hj) ∈ initCands 0 ncs := by
    simpa using initCands_mem 0 hget
  have huniq : ∀ en ∈ initCands 0 ncs,
      resolveOnline onl en.2.1 en.2.2.1 en.2.2.2 = true → en = (j, nj, cj, hj) := by
    rintro ⟨i, n, c, h⟩ hmen hren
    obtain ⟨-, q, hq⟩ := mem_initCands hmen
    simp only [Nat.sub_zero] at hq
    have hilen : i < ncs.length := (List.getElem?_eq_some.mp hq).1
    have hresi : resolveAt onl ncs i = true := by
      unfold resolveAt
      rw [hq]
      exact hren
    by_cases hij : i = j
    · subst hij
      rw [hget] at hq
      simp only [Option.some.injEq, Prod.mk.injEq] at hq
      obtain ⟨rfl, rfl, -, rfl⟩ := hq
      rfl
    · have hfalse := hoff i hilen hij
      rw [hresi] at hfalse
      simp at hfalse
  have hne : ncs ≠ [] := by
    intro h0
    rw [h0] at hjlen
    simp at hjlen
  unfold choice
  rw [if_neg (by simp [isEmpty_false_of_ne_nil hne])]
  exact choiceLoop_unique onl rand (initCands 0 ncs).length 0 (initCands 0 ncs)
    j nj cj hj le_rfl hmemj hres huniq

/-- Witness for C3: two candidates of which only the second is online (by
hint); every run returns index 1 with flag true. -/
theorem choice_unique_online_witness :
    choice (fun _ _ => false) (fun _ => 0)
      [(5, "a", 0, some false), (6, "b", 0, some true)] = some (1, true) :=
  choice_unique_online (fun _ _ => false) (fun _ => 0)
    [(5, "a", 0, some false), (6, "b", 0, some true)] 1
    (by decide) (by decide) (by decide)

/-- Claim C4: `choice` terminates on every finite candidate list: a fuel
budget of one unit per candidate already suffices for its loop to finish with
the very result `choice` computes, so the loop performs at most as many
iterations as there are candidates. -/
theorem choice_terminates_within_length (onl : NodeId → ClientId → Bool)
    (rand : Nat → Nat) (ncs : List Cand) :
    choiceFuel onl rand ncs.length ncs = some (choice onl rand ncs) := by
  unfold choiceFuel choice
  cases hI : ncs.isEmpty
  · rw [if_neg (by simp [hI]), if_neg (by simp [hI])]
    exact choiceLoopFuel_eq onl rand (initCands 0 ncs).length ncs.length 0
      (initCands 0 ncs) le_rfl (le_of_eq (initCands_length 0 ncs))
  · rw [if_pos (by simp [hI]), if_pos (by simp [hI])]

/-- Claim C5: whenever at least one candidate resolves as online, `choice`
never takes the offline fallback path — the returned winner carries online
flag `true`, and that flag equals the resolved online status of the winner
itself. -/
theorem choice_prefers_online (onl : NodeId → ClientId → Bool) (rand : Nat → Nat)
    (ncs : List Cand) (hex : ∃ i, i < ncs.length ∧ resolveAt onl ncs i = true) :
    ∃ i, choice onl rand ncs = some (i, true) ∧ i < ncs.length ∧
      resolveAt onl ncs i = true := by
  obtain ⟨i0, hi0, hres0⟩ := hex
  obtain ⟨n0, c0, q0, h0, hget0⟩ : ∃ n c q h, ncs[i0]? = some (n, c, q, h) := by
    refine ⟨ncs[i0].1, ncs[i0].2.1, ncs[i0].2.2.1, ncs[i0].2.2.2, ?_⟩
    rw [List.getElem?_eq_getElem hi0]
  have hron : resolveOnline onl n0 c0 h0 = true := by
    unfold resolveAt at hres0
    rw [hget0] at hres0
    exact hres0
  have hmem0 : (i0, n0, c0, h0) ∈ initCands 0 ncs := by
    simpa using initCands_mem 0 hget0
  have hne : ncs ≠ [] := by
    intro h0'
    rw [h0'] at hi0
    simp at hi0
  obtain ⟨i, hwin⟩ := choiceLoop_online onl rand (initCands 0 ncs).length 0
    (initCands 0 ncs) le_rfl ⟨(i0, n0, c0, h0), hmem0, hron⟩
  obtain ⟨n, c, h, hm, hr⟩ := choiceLoop_winner onl rand (initCands 0 ncs).length 0
    (initCands 0 ncs) i true le_rfl hwin
  obtain ⟨-, q, hq⟩ := mem_initCands hm
  simp only [Nat.sub_zero] at hq
  have hilen : i < ncs.length := (List.getElem?_eq_some.mp hq).1
  have hresi : resolveAt onl ncs i = true := by
    unfold resolveAt
    rw [hq]
    exact hr
  refine ⟨i, ?_, hilen, hresi⟩
  unfold choice
  rw [if_neg (by simp [isEmpty_false_of_ne_nil hne])]
  exact hwin

/-- Witness for C5: three candidates, one resolving online through the
router oracle; the winner is online and its flag matches its status. -/
theorem choice_prefers_online_witness :
    ∃ i, choice (fun _ c => c == "up") (fun _ => 1)
        [(5, "down", 0, some false), (6, "up", 1, none), (7, "down2", 2, none)] =
        some (i, true) ∧
      i < [(5, "down", 0, some false), (6, "up", 1, none),
        (7, "down2", 2, none)].length ∧
      resolveAt (fun _ c => c == "up")
        [(5, "down", 0, some false), (6, "up", 1, none), (7, "down2", 2, none)] i = true :=
  choice_prefers_online (fun _ c => c == "up") (fun _ => 1)
    [(5, "down", 0, some false), (6, "up", 1, none), (7, "down2", 2, none)]
    ⟨1, by decide, by decide⟩

/-- Claim C6: on every non-empty candidate list the winner index is a valid
index into the input, the loop examines each candidate at most once (its
trace of examined indices has no repetition), and the final return of `none`
after the loop is unreachable (the result is always some winner). -/
theorem choice_index_valid (onl : NodeId → ClientId → Bool) (rand : Nat → Nat)
    (ncs : List Cand) (hne : ncs ≠ []) :
    (∀ i b, choice onl rand ncs = some (i, b) → i < ncs.length) ∧
    (choiceTrace onl rand ncs).1.Nodup ∧
    (choiceTrace onl rand ncs).2 = choice onl rand ncs ∧
    (choice onl rand ncs).isSome := by
  have hE : ncs.isEmpty = false := isEmpty_false_of_ne_nil hne
  have hch : choice onl rand ncs = choiceLoop onl rand 0 (initCands 0 ncs) := by
    unfold choice
    rw [if_neg (by simp [hE])]
  have htr : choiceTrace onl rand ncs = choiceLoopTrace onl rand 0 (initCands 0 ncs) := by
    unfold choiceTrace
    rw [if_neg (by simp [hE])]
  refine ⟨?_, ?_, ?_, ?_⟩
  · intro i b heq
    rw [hch] at heq
    obtain ⟨n, c, h, hm, -⟩ := choiceLoop_winner onl rand (initCands 0 ncs).length 0
      (initCands 0 ncs) i b le_rfl heq
    obtain ⟨-, q, hq⟩ := mem_initCands hm
    simp only [Nat.sub_zero] at hq
    exact (List.getElem?_eq_some.mp hq).1
  · rw [htr]
    exact choiceLoopTrace_fst_nodup onl rand (initCands 0 ncs).length 0
      (initCands 0 ncs) le_rfl (initCands_fst_nodup 0 ncs)
  · rw [htr, hch]
    exact choiceLoopTrace_snd onl rand (initCands 0 ncs).length 0
      (initCands 0 ncs) le_rfl
  · rw [hch]
    exact choiceLoop_isSome onl rand (initCands 0 ncs).length 0
      (initCands 0 ncs) le_rfl (initCands_ne_nil hne)

/-- Witness for C6: a concrete two-candidate list, both offline. -/
theorem choice_index_valid_witness :
    (∀ i b, choice (fun _ _ => false) (fun _ => 3)
        [(5, "a", 0, some false), (6, "b", 0, none)] = some (i, b) →
        i < [(5, "a", 0, some false), (6, "b", 0, none)].length) ∧
    (choiceTrace (fun _ _ => false) (fun _ => 3)
      [(5, "a", 0, some false), (6, "b", 0, none)]).1.Nodup ∧
    (choiceTrace (fun _ _ => false) (fun _ => 3)
        [(5, "a", 0, some false), (6, "b", 0, none)]).2 =
      choice (fun _ _ => false) (fun _ => 3)
        [(5, "a", 0, some false), (6, "b", 0, none)] ∧
    (choice (fun _ _ => false) (fun _ => 3)
      [(5, "a", 0, some false), (6, "b", 0, none)]).isSome :=
  choice_index_valid (fun _ _ => false) (fun _ => 3)
    [(5, "a", 0, some false), (6, "b", 0, none)] (by decide)

/-- Claim C7: for every node id and client id, the default
`Router::is_online` delegates to the `Shared` registry — it returns exactly
the result of looking up the entry for the `Id` composed of that node id and
client id and asking its `is_connected` accessor. -/
theorem router_is_online_delegates (s : SharedState) (n : NodeId) (c : ClientId) :
    Router.is_online s n c = (s.entry (Id.ofParts n c)).is_connected :=
  rfl

/-- Claim C8: in every state, the default `Shared::all_clients` returns the
same count as `clients`, and the default `Shared::all_sessions` the same
count as `sessions` — the cluster-wide defaults forward to the local
counts. -/
theorem shared_all_counts_local (s : SharedCounts) :
    Shared.all_clients s = s.clients ∧ Shared.all_sessions s = s.sessions :=
  ⟨rfl, rfl⟩

/-- Claim C9: the default `Shared::get_grpc_clients` returns an empty map of
peer connections, and for every node id the default `Shared::node_name`
returns the loopback label of that node id followed by the suffix. -/
theorem shared_cluster_defaults :
    Shared.get_grpc_clients = ([] : GrpcClients) ∧
    (∀ id : NodeId, Shared.node_name id = Nat.repr id ++ "@127.0.0.1") ∧
    Shared.node_name 9 = "9@127.0.0.1" :=
  ⟨rfl, fun _ => rfl, rfl⟩

/-- Claim C10: the result type of `Entry::publish` reports every delivery
failure as data — each value of it is either unit success or an undelivered
`(from, publish, reason)` triple handed back to the caller. -/
theorem publish_failure_as_data (F P R : Type) (r : PublishResult F P R) :
    r = Except.ok () ∨ ∃ f p rs, r = Except.error (f, p, rs) := by
  cases r with
  | ok u =>
    left
    rfl
  | error e =>
    right
    exact ⟨e.1, e.2.1, e.2.2, rfl⟩

end Rmqtt
